import Mathlib

/-
Verification of remove_dupes.py against its design specification.

Python strings are modelled as lists of characters (Str), Python dicts as
association lists with unique keys, and the two pickled stores (the queue
store and the hash index store) as association lists keyed by the search
root.  Filesystem side effects (renames to trash, rmdir of empty
directories, reads of file bytes) are modelled explicitly where a claim
depends on them.
-/

abbrev Str := List Char

/-- Association-list lookup, modelling Python dict read d[k] / d.get(k). -/
def lookupA {α : Type} (k : Str) : List (Str × α) → Option α
  | [] => none
  | (k2, v) :: rest => if k2 = k then some v else lookupA k rest

/-- Membership test, modelling Python k in d. -/
def hasKeyA {α : Type} (k : Str) (m : List (Str × α)) : Bool :=
  (lookupA k m).isSome

/-- Update-or-append, modelling Python dict write d[k] = v. -/
def setA {α : Type} (k : Str) (v : α) : List (Str × α) → List (Str × α)
  | [] => [(k, v)]
  | (k2, v2) :: rest => if k2 = k then (k2, v) :: rest else (k2, v2) :: setA k v rest

/-- Key removal, modelling Python d.pop(k). -/
def eraseA {α : Type} (k : Str) : List (Str × α) → List (Str × α)
  | [] => []
  | (k2, v) :: rest => if k2 = k then rest else (k2, v) :: eraseA k rest

/-- Keys of an association list are pairwise distinct (dict invariant). -/
def keysNodupA {α : Type} (m : List (Str × α)) : Prop :=
  (m.map Prod.fst).Nodup

/-
The copy-marker regular expression.  cleanup_one_entry compiles the
pattern backslash-open-paren, backslash-d-plus, backslash-close-paren and
uses re.search, i.e. it asks whether anywhere in the string there is a
literal open parenthesis, one or more ASCII digits, and a literal close
parenthesis.
-/

/-- After the opening parenthesis and a first digit: consume further
digits; succeed exactly when the digit run is closed by a parenthesis. -/
def parenNumTail : Str → Bool
  | [] => false
  | c :: cs => if c = ')' then true else if c.isDigit then parenNumTail cs else false

/-- Matches one-or-more digits followed by a closing parenthesis. -/
def parenNum : Str → Bool
  | [] => false
  | c :: cs => c.isDigit && parenNumTail cs

/-- re.search of the marker pattern on a string: some position starts an
occurrence of "(", digits, ")". -/
def hasMarker : Str → Bool
  | [] => false
  | c :: cs => (c = '(' && parenNum cs) || hasMarker cs

/-- os.path.basename: the substring after the last slash. -/
def pyBasename (s : Str) : Str :=
  (s.reverse.takeWhile (fun c => c ≠ '/')).reverse

/-- remove = filter(regexp.search, dups): the removal candidates, in list
order, are the paths whose full path string matches the marker pattern. -/
def cleanup_one_entry_remove (dups : List Str) : List Str :=
  dups.filter (fun d => hasMarker d)

/-- Python list(set(a) - set(b)): the set difference as a duplicate-free
list; the order a Python set iterates in is unspecified, modelled here by
List.dedup of the filtered list (membership and emptiness agree with the
source exactly). -/
def pyListSetDiff (a b : List Str) : List Str :=
  (a.filter (fun x => decide (x ∉ b))).dedup

/-- cleanup_one_entry's return value: the kept paths,
list(set(dups) - set(remove)). -/
def cleanup_one_entry (dups : List Str) : List Str :=
  pyListSetDiff dups (cleanup_one_entry_remove dups)

/-- The source paths cleanup_one_entry renames into the trash directory:
every removal candidate that exists on disk at move time; pathExists
stands for os.path.exists. -/
def cleanup_one_entry_moves (pathExists : Str → Bool) (dups : List Str) : List Str :=
  (cleanup_one_entry_remove dups).filter pathExists

/-- A per-root bucket map: content digest to the list of file paths that
hashed to it, in append order. -/
abbrev BucketMap := List (Str × List Str)

/-- The pickled queue store: search root to the ordered list of directory
paths still awaiting hashing. -/
abbrev QStore := List (Str × List Str)

/-- The pickled hash index store: search root to its bucket map. -/
abbrev HStore := List (Str × BucketMap)

/-- Outcome of one reset invocation: whether it returned normally, and the
on-disk contents of the two stores when it ended. -/
structure ResetOutcome where
  ok : Bool
  queueDisk : QStore
  hashDisk : HStore
deriving DecidableEq

/-- reset: load the queue store, pop the root and persist if present; load
the hash store and pop the root if present — but the final line calls
write_hashes_to_cache() with no argument, and write_hashes_to_cache is a
one-parameter function, so that call raises TypeError before anything is
written: when the root is present in the hash store, reset aborts there
and the hash store on disk keeps the root's entry. -/
def reset (root : Str) (qs : QStore) (hs : HStore) : ResetOutcome :=
  let qs2 := if hasKeyA root qs then eraseA root qs else qs
  if hasKeyA root hs then
    { ok := false, queueDisk := qs2, hashDisk := hs }
  else
    { ok := true, queueDisk := qs2, hashDisk := hs }

/-- The streaming hash accumulator interface used through hashlib: an
initial state (hashlib.sha1()), update with one chunk of bytes, and the
hex digest of a state.  SHA-1 itself lives in the external hashlib
library; every theorem below holds for an arbitrary accumulator. -/
structure Hasher (σ : Type) where
  init : σ
  update : σ → List Nat → σ
  hexdigest : σ → Str

/-- The filesystem as seen through the os calls the hashing phase makes:
directory listing, directory test, and the byte content of a file. -/
structure PyFS where
  listdir : Str → List Str
  isdir : Str → Bool
  read : Str → List Nat

/-- The local constant BUF_SIZE of process_one_file: 2**20 bytes. -/
def BUF_SIZE : Nat := 2 ^ 20

/-- The successive f.read(size) results of process_one_file's read loop on
a file whose whole content is l: chunks of at most size bytes until the
content is exhausted.  Python's f.read(0) returns an empty byte string at
once, so a zero size yields no chunks. -/
def chunksOf (size : Nat) (l : List Nat) : List (List Nat) :=
  if h : size = 0 ∨ l = [] then []
  else l.take size :: chunksOf size (l.drop size)
termination_by l.length
decreasing_by
  push_neg at h
  simp only [List.length_drop]
  exact Nat.sub_lt (List.length_pos.mpr h.2) (Nat.pos_of_ne_zero h.1)

/-- The recognized configuration surface, translated from parse_args:
cache_dir, search_dir, prune_empty_dirs and trash_dir.  parse_args defines
no chunk-size option. -/
structure Flags where
  cache_dir : Str
  search_dir : Str
  prune_empty_dirs : Bool
  trash_dir : Str
deriving DecidableEq

/-- The chunk size process_one_file reads with, as a function of the
ambient global flags value: the body sets the local constant
BUF_SIZE = 2**20 and consults no configuration, so the result ignores the
flags argument. -/
def process_one_file_chunk_size (_fl : Flags) : Nat := BUF_SIZE

/-- process_one_file: open the file, read it in BUF_SIZE-byte chunks, feed
every chunk into the single sha1 accumulator, return its hex digest. -/
def process_one_file {σ : Type} (H : Hasher σ) (fs : PyFS) (path : Str) : Str :=
  H.hexdigest ((chunksOf BUF_SIZE (fs.read path)).foldl H.update H.init)

/-- os.path.join for an absolute directory and a relative entry name. -/
def joinPath (p n : Str) : Str := p ++ '/' :: n

/-- process_one_folder: list the directory and, for every entry that is
not itself a directory, hash the file and append its path to the bucket
of its digest (hashes.setdefault(sha1, []) followed by append). -/
def process_one_folder {σ : Type} (H : Hasher σ) (fs : PyFS) (path : Str)
    (hashes : BucketMap) : BucketMap :=
  (fs.listdir path).foldl
    (fun m f =>
      let fp := joinPath path f
      if fs.isdir fp then m
      else
        let sha1 := process_one_file H fs fp
        setA sha1 ((lookupA sha1 m).getD [] ++ [fp]) m)
    hashes

/-- The bucket map after hashing a list of directories in order. -/
def absorbDirs {σ : Type} (H : Hasher σ) (fs : PyFS) (m : BucketMap) :
    List Str → BucketMap :=
  fun ds => ds.foldl (fun acc d => process_one_folder H fs d acc) m

/-- Everything observable about one run of search's main loop: the hash
store snapshots and queue store snapshots persisted, in write order, and
the final in-memory bucket map of the root. -/
structure SearchTrace where
  hashWrites : List HStore
  queueWrites : List QStore
  finalBuckets : BucketMap
deriving DecidableEq

/-- search's main loop (while queue and not quit).  sig n is the value of
the global quit flag at the n-th evaluation of the while condition; the
flag is set by the SIGINT handler set_quit and never cleared.  Each pass
pops the first directory, hashes its files, persists the hash store, then
persists the queue store — one directory is one checkpoint unit. -/
def searchLoop {σ : Type} (H : Hasher σ) (fs : PyFS) (root : Str)
    (qs1 : QStore) (hs1 : HStore) (sig : Nat → Bool) :
    List Str → BucketMap → SearchTrace
  | [], m => ⟨[], [], m⟩
  | d :: rest, m =>
    if sig 0 then ⟨[], [], m⟩
    else
      let m2 := process_one_folder H fs d m
      let t := searchLoop H fs root qs1 hs1 (fun n => sig (n + 1)) rest m2
      ⟨setA root m2 hs1 :: t.hashWrites, setA root rest qs1 :: t.queueWrites,
        t.finalBuckets⟩

/-- How an action invocation ended. -/
inductive ActionOutcome where
  | notSetUp
  | noDuplicates
  | ran
deriving DecidableEq

/-- The search action: load both stores; when the root is absent from the
queue store, log the error and return without touching either store;
otherwise setdefault the root's bucket map and run the checkpointed
loop. -/
def search {σ : Type} (H : Hasher σ) (fs : PyFS) (sig : Nat → Bool)
    (root : Str) (qs : QStore) (hs : HStore) : ActionOutcome × SearchTrace :=
  if ¬ hasKeyA root qs then (.notSetUp, ⟨[], [], []⟩)
  else
    let queue := (lookupA root qs).getD []
    let hs1 := if hasKeyA root hs then hs else setA root [] hs
    let m0 := (lookupA root hs1).getD []
    (.ran, searchLoop H fs root qs hs1 sig queue m0)

/-- Everything observable about one run of cleanup's main loop: hash store
snapshots persisted in write order, queue store snapshots persisted (the
cleanup body contains no write_queues_to_cache call, so every constructor
below passes the empty list), source paths moved to trash in move order,
and the final in-memory bucket map of the root. -/
structure CleanupTrace where
  hashWrites : List HStore
  queueWrites : List QStore
  moves : List Str
  finalBuckets : BucketMap
deriving DecidableEq

/-- cleanup's main loop over the root's buckets, in iteration order.  For
a bucket of more than one path, cleanup_one_entry partitions and moves the
removal candidates; when the returned kept list is non-empty (if kept:)
the bucket is replaced by it and the hash store persisted.  The quit flag
is read after each bucket (sig n at the n-th read). -/
def cleanupLoop (root : Str) (hs1 : HStore) (pathExists : Str → Bool)
    (sig : Nat → Bool) : List (Str × List Str) → BucketMap → CleanupTrace
  | [], m => ⟨[], [], [], m⟩
  | (k, v) :: rest, m =>
    let step : List HStore × List Str × BucketMap :=
      if 1 < v.length then
        let kept := cleanup_one_entry v
        let mv := cleanup_one_entry_moves pathExists v
        if kept ≠ [] then
          let m2 := setA k kept m
          ([setA root m2 hs1], mv, m2)
        else ([], mv, m)
      else ([], [], m)
    if sig 0 then ⟨step.1, [], step.2.1, step.2.2⟩
    else
      let t := cleanupLoop root hs1 pathExists (fun n => sig (n + 1)) rest step.2.2
      ⟨step.1 ++ t.hashWrites, [], step.2.1 ++ t.moves, t.finalBuckets⟩

/-- The cleanup action: when the root is absent from the queue store, log
and return; when the root is absent from the hash store, report no
duplicates and return; otherwise iterate the root's buckets. -/
def cleanup (root : Str) (qs : QStore) (hs : HStore)
    (pathExists : Str → Bool) (sig : Nat → Bool) : ActionOutcome × CleanupTrace :=
  if ¬ hasKeyA root qs then (.notSetUp, ⟨[], [], [], []⟩)
  else if ¬ hasKeyA root hs then (.noDuplicates, ⟨[], [], [], []⟩)
  else
    let m0 := (lookupA root hs).getD []
    (.ran, cleanupLoop root hs pathExists sig m0 m0)

/-- The status action: reads both stores and logs; it contains no store
write.  Reports whether the root is set up, and if so the remaining queue
length and the root's bucket map. -/
def status (root : Str) (qs : QStore) (hs : HStore) :
    ActionOutcome × Option (Nat × Option BucketMap) :=
  if ¬ hasKeyA root qs then (.notSetUp, none)
  else (.ran, some (((lookupA root qs).getD []).length, lookupA root hs))

/-- The analyze action: reads both stores and logs; it contains no store
write.  Reports whether the root is set up, and if so the number of
buckets holding more than one path. -/
def analyze (root : Str) (qs : QStore) (hs : HStore) :
    ActionOutcome × Option Nat :=
  if ¬ hasKeyA root qs then (.notSetUp, none)
  else
    match lookupA root hs with
    | none => (.ran, none)
    | some m => (.ran, some ((m.filter (fun kv => 1 < kv.2.length)).length))

/-- Spec-level description of cleanup's persistence pattern, following the
amended claim wording: walking the buckets in order, exactly one hash
store write happens after each duplicate set whose computed keep partition
is non-empty — the snapshot with that bucket replaced by keep — and no
write happens for a bucket of at most one path or for a duplicate set
whose keep partition is empty. -/
def cleanupWritesSpec (root : Str) (hs1 : HStore) :
    List (Str × List Str) → BucketMap → List HStore
  | [], _ => []
  | (k, v) :: rest, m =>
    if 1 < v.length ∧ cleanup_one_entry v ≠ [] then
      setA root (setA k (cleanup_one_entry v) m) hs1 ::
        cleanupWritesSpec root hs1 rest (setA k (cleanup_one_entry v) m)
    else
      cleanupWritesSpec root hs1 rest m

/-- Every bucket of at most one path in the reference map m0 reads back
unchanged from the map m. -/
def smallPreserved (m0 m : BucketMap) : Prop :=
  ∀ k v0, lookupA k m0 = some v0 → v0.length ≤ 1 → lookupA k m = some v0

/-- A transparent accumulator used to instantiate witnesses: the state
records the chunks fed to it. -/
def toyHasher : Hasher (List (List Nat)) :=
  { init := [], update := fun s c => s ++ [c], hexdigest := fun _ => [] }

/-- A tiny filesystem used to instantiate witnesses. -/
def toyFS : PyFS :=
  { listdir := fun _ => [], isdir := fun _ => false, read := fun _ => [1, 2, 3] }

/-
The filesystem tree model for the DirectoryEnumerator (list_dirs).  A
directory's listing is a sequence of named entries in os.listdir order;
the walk both collects non-empty directories deepest-first and, via
remove_empty_dir, deletes directories found empty (the final re-listing
os.listdir check on line 115 of the source runs regardless of the
prune_empty_dirs flag; the flag only short-circuits the walk for a
directory already empty on entry).
-/

mutual
inductive FSNode where
  | file : FSNode
  | dir : FSList → FSNode
deriving DecidableEq

inductive FSList where
  | nil : FSList
  | cons (name : Str) (node : FSNode) (rest : FSList) : FSList
deriving DecidableEq
end

def FSList.isNil : FSList → Bool
  | .nil => true
  | .cons _ _ _ => false

mutual
def postorderDirs (path : Str) : FSNode → List Str
  | .file => []
  | .dir cs => postorderChildren path cs ++ [path]

def postorderChildren (path : Str) : FSList → List Str
  | .nil => []
  | .cons n node rest =>
    postorderDirs (joinPath path n) node ++ postorderChildren path rest
end

def list_dirs_children (prune : Bool) (path : Str) : FSList → List Str × FSList
  | .nil => ([], .nil)
  | .cons n node rest =>
    match node with
    | .file =>
      let r := list_dirs_children prune path rest
      (r.1, .cons n .file r.2)
    | .dir cs =>
      let rc :=
        if cs.isNil && prune then (([], none) : List Str × Option FSList)
        else
          let r := list_dirs_children prune (joinPath path n) cs
          if r.2.isNil then ([], none)
          else (r.1 ++ [joinPath path n], some r.2)
      let rr := list_dirs_children prune path rest
      match rc.2 with
      | none => (rc.1 ++ rr.1, rr.2)
      | some cs2 => (rc.1 ++ rr.1, .cons n (.dir cs2) rr.2)

mutual
def noEmptyDirs : FSNode → Bool
  | .file => true
  | .dir cs => !cs.isNil && noEmptyDirsChildren cs

def noEmptyDirsChildren : FSList → Bool
  | .nil => true
  | .cons _ node rest => noEmptyDirs node && noEmptyDirsChildren rest
end

def namesOf : FSList → List Str
  | .nil => []
  | .cons n _ rest => n :: namesOf rest

def entryMem (n : Str) (node : FSNode) : FSList → Prop
  | .nil => False
  | .cons n2 node2 rest => (n = n2 ∧ node = node2) ∨ entryMem n node rest

mutual
def wfNames : FSNode → Bool
  | .file => true
  | .dir cs =>
    decide (namesOf cs).Nodup &&
      (namesOf cs).all (fun n => decide ('/' ∉ n)) && wfNamesChildren cs

def wfNamesChildren : FSList → Bool
  | .nil => true
  | .cons _ node rest => wfNames node && wfNamesChildren rest
end

mutual
def countDirs : FSNode → Nat
  | .file => 0
  | .dir cs => countDirsChildren cs + 1

def countDirsChildren : FSList → Nat
  | .nil => 0
  | .cons _ node rest => countDirs node + countDirsChildren rest
end

def extendsPath (q x : Str) : Prop := x = q ∨ ∃ r, x = q ++ '/' :: r

def isAncOf (a b : Str) : Prop := ∃ t, b = a ++ '/' :: t

def list_dirs (prune : Bool) (path : Str) : FSNode → List Str × Option FSNode
  | .file => ([], some .file)
  | .dir cs =>
    if cs.isNil && prune then ([], none)
    else
      let r := list_dirs_children prune path cs
      if r.2.isNil then ([], none)
      else (r.1 ++ [path], some (.dir r.2))

mutual
def effEmpty : FSNode → Bool
  | .file => false
  | .dir cs => effEmptyChildren cs

def effEmptyChildren : FSList → Bool
  | .nil => true
  | .cons _ node rest => effEmpty node && effEmptyChildren rest
end

def pruneChildren : FSList → FSList
  | .nil => .nil
  | .cons n node rest =>
    match node with
    | .file => .cons n .file (pruneChildren rest)
    | .dir cs =>
      if effEmptyChildren cs then pruneChildren rest
      else .cons n (.dir (pruneChildren cs)) (pruneChildren rest)

def pruneT : FSNode → FSNode
  | .file => .file
  | .dir cs => .dir (pruneChildren cs)

mutual
def effEmptyFree : FSNode → Bool
  | .file => true
  | .dir cs => !effEmptyChildren cs && effEmptyFreeChildren cs

def effEmptyFreeChildren : FSList → Bool
  | .nil => true
  | .cons _ node rest => effEmptyFree node && effEmptyFreeChildren rest
end

/-- A sample tree used by witnesses: a file "a" and a directory "b"
holding a file "c". -/
def sampleTree : FSList :=
  .cons "a".toList .file (.cons "b".toList (.dir (.cons "c".toList .file .nil)) .nil)

/-- A sample tree used by witnesses: a file "a" and an empty directory
"e". -/
def sampleTree2 : FSList :=
  .cons "a".toList .file (.cons "e".toList (.dir .nil) .nil)

/-- Claim C1: the code violates the required invariant.  For the concrete
duplicate set of two paths that both carry the parenthesized numeric
marker, cleanup_one_entry computes an empty keep partition and moves both
paths into the trash: no path is retained, so the last copies of that
content all leave the search tree. -/
theorem c1_code_eval :
    cleanup_one_entry ["/d/a(1)".toList, "/d/a(2)".toList] = [] ∧
    cleanup_one_entry_moves (fun _ => true) ["/d/a(1)".toList, "/d/a(2)".toList] =
      ["/d/a(1)".toList, "/d/a(2)".toList] := by
  decide

/-- Claim C2 (counterexample): the removal candidates are computed from the
full path string, not from the filename.  On the duplicate set with paths
"/photos(1)/a" and "/b/a" — where no FILENAME carries a marker — the code
removes "/photos(1)/a" (its directory component matches), while the claim
as stated demands that nothing is removed. -/
theorem c2_counterexample :
    cleanup_one_entry_remove ["/photos(1)/a".toList, "/b/a".toList] =
      ["/photos(1)/a".toList] ∧
    ["/photos(1)/a".toList, "/b/a".toList].filter
      (fun d => hasMarker (pyBasename d)) = [] := by
  decide

/-- Claim C2 as amended: remove is exactly the set of paths whose FULL PATH
string contains a parenthesized numeric marker, keep is (as a set) all
paths minus remove, and when no path's full path carries the marker
nothing is removed and every path stays kept. -/
theorem c2_partition (dups : List Str) (p : Str) :
    (p ∈ cleanup_one_entry_remove dups ↔ p ∈ dups ∧ hasMarker p = true) ∧
    (p ∈ cleanup_one_entry dups ↔ p ∈ dups ∧ hasMarker p = false) ∧
    ((∀ q ∈ dups, hasMarker q = false) →
      cleanup_one_entry_remove dups = [] ∧ (p ∈ cleanup_one_entry dups ↔ p ∈ dups)) := by
  refine ⟨?_, ?_, ?_⟩
  · simp [cleanup_one_entry_remove, List.mem_filter]
  · simp [cleanup_one_entry, pyListSetDiff, cleanup_one_entry_remove,
      List.mem_dedup, List.mem_filter]
    tauto
  · intro h
    constructor
    · simp only [cleanup_one_entry_remove, List.filter_eq_nil_iff]
      intro a ha
      simp [h a ha]
    · simp [cleanup_one_entry, pyListSetDiff, cleanup_one_entry_remove,
        List.mem_dedup, List.mem_filter]
      exact fun hp => Or.inr (h p hp)

/-- Witness for c2_partition at a concrete duplicate set with no marked
path. -/
theorem c2_partition_witness :
    cleanup_one_entry_remove ["/b/a".toList] = [] ∧
    ("/b/a".toList ∈ cleanup_one_entry ["/b/a".toList] ↔
      "/b/a".toList ∈ ["/b/a".toList]) :=
  (c2_partition ["/b/a".toList] "/b/a".toList).2.2 (by decide)

/-- Looking a key up after a dict write: the written key reads back the
new value, every other key is unchanged. -/
theorem lookupA_setA {α : Type} (k1 k2 : Str) (v : α) (m : List (Str × α)) :
    lookupA k1 (setA k2 v m) = if k2 = k1 then some v else lookupA k1 m := by
  induction m with
  | nil => simp [setA, lookupA]
  | cons p rest ih =>
    obtain ⟨a, b⟩ := p
    by_cases hak : a = k2
    · subst hak
      simp only [setA, if_pos rfl, lookupA]
      split_ifs with h1 h2 <;> simp_all
    · simp only [setA, if_neg hak, lookupA, ih]
      split_ifs with h1 h2 <;> simp_all

/-- In a dict with pairwise-distinct keys, a stored pair is what lookup
returns. -/
theorem lookupA_of_mem_nodup {α : Type} (k : Str) (v : α) (m : List (Str × α))
    (hnd : keysNodupA m) (hmem : (k, v) ∈ m) : lookupA k m = some v := by
  induction m with
  | nil => cases hmem
  | cons p rest ih =>
    obtain ⟨a, b⟩ := p
    simp only [keysNodupA, List.map_cons, List.nodup_cons] at hnd
    rcases List.mem_cons.mp hmem with h | h
    · obtain ⟨h1, h2⟩ := Prod.mk.injEq .. ▸ h
      cases h
      simp [lookupA]
    · have hak : a ≠ k := by
        intro hak
        subst hak
        exact hnd.1 (List.mem_map.mpr ⟨(a, v), h, rfl⟩)
      simp only [lookupA, if_neg hak]
      exact ih hnd.2 h

/-- The chunks the read loop produces concatenate back to the whole file
content (for a non-zero chunk size). -/
theorem chunksOf_join (size : Nat) (hs : size ≠ 0) (l : List Nat) :
    (chunksOf size l).flatten = l := by
  have main : ∀ n (l : List Nat), l.length ≤ n → (chunksOf size l).flatten = l := by
    intro n
    induction n with
    | zero =>
      intro l hl
      have hnil : l = [] := List.length_eq_zero.mp (Nat.le_zero.mp hl)
      subst hnil
      rw [chunksOf]
      simp
    | succ n ih =>
      intro l hl
      rw [chunksOf]
      by_cases hnil : l = []
      · simp [hnil]
      · rw [dif_neg (by push_neg; exact ⟨hs, hnil⟩)]
        have hpos : 0 < l.length := List.length_pos.mpr hnil
        have hdrop : (l.drop size).length ≤ n := by
          rw [List.length_drop]
          have h1 : 1 ≤ size := Nat.one_le_iff_ne_zero.mpr hs
          omega
        simp only [List.flatten_cons]
        rw [ih _ hdrop]
        exact List.take_append_drop size l
  exact main l.length l le_rfl

/-- Every chunk the read loop produces is non-empty and holds at most
size bytes (for a non-zero chunk size). -/
theorem chunksOf_sizes (size : Nat) (hs : size ≠ 0) (l : List Nat) :
    ∀ c ∈ chunksOf size l, c ≠ [] ∧ c.length ≤ size := by
  have main : ∀ n (l : List Nat), l.length ≤ n →
      ∀ c ∈ chunksOf size l, c ≠ [] ∧ c.length ≤ size := by
    intro n
    induction n with
    | zero =>
      intro l hl
      have hnil : l = [] := List.length_eq_zero.mp (Nat.le_zero.mp hl)
      subst hnil
      rw [chunksOf]
      simp
    | succ n ih =>
      intro l hl c hc
      rw [chunksOf] at hc
      by_cases hnil : l = []
      · simp [hnil] at hc
      · rw [dif_neg (by push_neg; exact ⟨hs, hnil⟩)] at hc
        rcases List.mem_cons.mp hc with h | h
        · subst h
          constructor
          · simp only [ne_eq, List.take_eq_nil_iff]
            push_neg
            exact ⟨hs, hnil⟩
          · simp [List.length_take]
        · have hpos : 0 < l.length := List.length_pos.mpr hnil
          have hdrop : (l.drop size).length ≤ n := by
            rw [List.length_drop]
            have h1 : 1 ≤ size := Nat.one_le_iff_ne_zero.mpr hs
            omega
          exact ih _ hdrop c h
  exact main l.length l le_rfl

/-- Claim C3: the code fails at its own job.  With the search root present
in both stores, reset removes and persists the queue entry, then reaches
write_hashes_to_cache() — called with no argument — and dies with a
TypeError: the run does not complete and the hash store on disk still
carries the root's entry. -/
theorem c3_code_eval :
    reset "/r".toList [("/r".toList, ["/r/d".toList])]
        [("/r".toList, [("aa".toList, ["/r/d/f".toList])])] =
      { ok := false, queueDisk := [],
        hashDisk := [("/r".toList, [("aa".toList, ["/r/d/f".toList])])] } ∧
    hasKeyA "/r".toList
      (reset "/r".toList [("/r".toList, ["/r/d".toList])]
        [("/r".toList, [("aa".toList, ["/r/d/f".toList])])]).hashDisk = true := by
  decide

/-- Claim C6 (counterexample to the configurability part): changing every
recognized configuration option — cache_dir, search_dir, prune_empty_dirs
and trash_dir are all that parse_args accepts — leaves the chunk size
process_one_file reads with unchanged at 2^20 bytes; no option configures
it. -/
theorem c6_counterexample :
    process_one_file_chunk_size
        ⟨"/c".toList, "/s".toList, false, ".t".toList⟩ =
      process_one_file_chunk_size
        ⟨"/x".toList, "/y".toList, true, "tz".toList⟩ ∧
    process_one_file_chunk_size
        ⟨"/c".toList, "/s".toList, false, ".t".toList⟩ = 2 ^ 20 :=
  ⟨rfl, rfl⟩

/-- Claim C6 as amended: process_one_file returns a hex digest that is a
deterministic function of the file's byte content alone — identical
content at two different paths gives identical digests — computed by
feeding the content into a single streaming accumulator as a sequence of
chunks of a fixed size of 2^20 bytes (1 MiB, not configurable) that
concatenate back to exactly the content. -/
theorem c6_hash_content (σ : Type) (H : Hasher σ) (fs : PyFS) (p1 p2 : Str)
    (h : fs.read p1 = fs.read p2) :
    process_one_file H fs p1 = process_one_file H fs p2 ∧
    (chunksOf BUF_SIZE (fs.read p1)).flatten = fs.read p1 ∧
    (∀ c ∈ chunksOf BUF_SIZE (fs.read p1), c ≠ [] ∧ c.length ≤ BUF_SIZE) ∧
    BUF_SIZE = 2 ^ 20 := by
  have hb : BUF_SIZE ≠ 0 := by norm_num [BUF_SIZE]
  exact ⟨by rw [process_one_file, process_one_file, h],
    chunksOf_join BUF_SIZE hb (fs.read p1),
    chunksOf_sizes BUF_SIZE hb (fs.read p1), rfl⟩

/-- Witness for c6_hash_content: the same three-byte content at two
distinct paths of the toy filesystem. -/
theorem c6_hash_content_witness :
    process_one_file toyHasher toyFS "/f1".toList =
      process_one_file toyHasher toyFS "/f2".toList ∧
    (chunksOf BUF_SIZE (toyFS.read "/f1".toList)).flatten =
      toyFS.read "/f1".toList ∧
    (∀ c ∈ chunksOf BUF_SIZE (toyFS.read "/f1".toList),
      c ≠ [] ∧ c.length ≤ BUF_SIZE) ∧
    BUF_SIZE = 2 ^ 20 :=
  c6_hash_content (List (List Nat)) toyHasher toyFS "/f1".toList "/f2".toList rfl

/-- Claim C9: with the search root absent from the queue store, each of
search, cleanup, status and analyze reports not-set-up and returns without
writing either store. -/
theorem c9_not_set_up (σ : Type) (H : Hasher σ) (fs : PyFS) (sig : Nat → Bool)
    (pathExists : Str → Bool) (root : Str) (qs : QStore) (hs : HStore)
    (h : hasKeyA root qs = false) :
    search H fs sig root qs hs = (.notSetUp, ⟨[], [], []⟩) ∧
    cleanup root qs hs pathExists sig = (.notSetUp, ⟨[], [], [], []⟩) ∧
    status root qs hs = (.notSetUp, none) ∧
    analyze root qs hs = (.notSetUp, none) := by
  simp [search, cleanup, status, analyze, h]

/-- Witness for c9_not_set_up: a root no setup was ever run for. -/
theorem c9_not_set_up_witness :
    search toyHasher toyFS (fun _ => false) "/r".toList [] [] =
      (.notSetUp, ⟨[], [], []⟩) ∧
    cleanup "/r".toList [] [] (fun _ => true) (fun _ => false) =
      (.notSetUp, ⟨[], [], [], []⟩) ∧
    status "/r".toList [] [] = (.notSetUp, none) ∧
    analyze "/r".toList [] [] = (.notSetUp, none) :=
  c9_not_set_up (List (List Nat)) toyHasher toyFS (fun _ => false)
    (fun _ => true) "/r".toList [] [] (by decide)

/-- Hashing no directory leaves the bucket map unchanged. -/
theorem absorbDirs_nil (σ : Type) (H : Hasher σ) (fs : PyFS) (m : BucketMap) :
    absorbDirs H fs m [] = m := rfl

/-- Hashing a directory then a list of directories. -/
theorem absorbDirs_cons (σ : Type) (H : Hasher σ) (fs : PyFS) (m : BucketMap)
    (d : Str) (l : List Str) :
    absorbDirs H fs m (d :: l) = absorbDirs H fs (process_one_folder H fs d m) l := rfl

/-- The search loop under a quit flag that is false at the first k reads
and set at the k-th: exactly min k (queue length) units run; each unit i
first persists the hash store holding the buckets of the first i+1
directories, then persists the queue store with those directories
consumed; the loop ends holding the buckets of the first k directories. -/
theorem searchLoop_cut (σ : Type) (H : Hasher σ) (fs : PyFS) (root : Str)
    (qs1 : QStore) (hs1 : HStore) :
    ∀ (queue : List Str) (k : Nat) (sig : Nat → Bool) (m : BucketMap),
      (∀ i, i < k → sig i = false) → (k < queue.length → sig k = true) →
      searchLoop H fs root qs1 hs1 sig queue m =
        ⟨(List.range (min k queue.length)).map
            (fun i => setA root (absorbDirs H fs m (queue.take (i + 1))) hs1),
          (List.range (min k queue.length)).map
            (fun i => setA root (queue.drop (i + 1)) qs1),
          absorbDirs H fs m (queue.take k)⟩ := by
  intro queue
  induction queue with
  | nil =>
    intro k sig m h1 h2
    simp [searchLoop, absorbDirs]
  | cons d rest ih =>
    intro k sig m h1 h2
    match k with
    | 0 =>
      have hs0 : sig 0 = true := h2 (by simp)
      simp [searchLoop, hs0, absorbDirs]
    | k + 1 =>
      have hs0 : sig 0 = false := h1 0 (Nat.succ_pos k)
      rw [searchLoop]
      rw [if_neg (by simp [hs0])]
      dsimp only
      rw [ih k (fun n => sig (n + 1)) (process_one_folder H fs d m)
        (fun i hi => h1 (i + 1) (Nat.succ_lt_succ hi))
        (fun hlen => h2 (Nat.succ_lt_succ hlen))]
      simp only [List.length_cons, Nat.succ_min_succ, List.range_succ_eq_map,
        List.map_cons, List.map_map, Function.comp_def, Nat.succ_eq_add_one,
        List.take_succ_cons, List.drop_succ_cons, List.take_zero, List.drop_zero,
        absorbDirs_cons, absorbDirs_nil]

/-- Without cancellation, the hash store writes of the cleanup loop are
exactly the ones cleanupWritesSpec describes: one per duplicate set whose
keep partition is non-empty, with that bucket replaced by keep. -/
theorem cleanupLoop_sig_false (root : Str) (hs1 : HStore) (pathExists : Str → Bool) :
    ∀ (entries : List (Str × List Str)) (m : BucketMap),
      (cleanupLoop root hs1 pathExists (fun _ => false) entries m).hashWrites =
        cleanupWritesSpec root hs1 entries m := by
  intro entries
  induction entries with
  | nil => intro m; rfl
  | cons e rest ih =>
    obtain ⟨k, v⟩ := e
    intro m
    by_cases h1 : 1 < v.length
    · by_cases h2 : cleanup_one_entry v = []
      · simp [cleanupLoop, cleanupWritesSpec, h1, h2, ih]
      · simp [cleanupLoop, cleanupWritesSpec, h1, h2, ih]
    · simp [cleanupLoop, cleanupWritesSpec, h1, ih]

/-- With the quit flag false at its first k reads and set at the k-th, the
cleanup loop behaves exactly like an uninterrupted run over the first k+1
buckets: the unit during which the flag was raised completes (its moves
happen and, when its keep partition is non-empty, its store write
happens), and no later bucket is touched. -/
theorem cleanupLoop_cut (root : Str) (hs1 : HStore) (pathExists : Str → Bool) :
    ∀ (entries : List (Str × List Str)) (k : Nat) (sig : Nat → Bool) (m : BucketMap),
      (∀ i, i < k → sig i = false) → sig k = true →
      cleanupLoop root hs1 pathExists sig entries m =
        cleanupLoop root hs1 pathExists (fun _ => false) (entries.take (k + 1)) m := by
  intro entries
  induction entries with
  | nil =>
    intro k sig m h1 h2
    simp [cleanupLoop]
  | cons e rest ih =>
    obtain ⟨kk, v⟩ := e
    intro k sig m h1 h2
    match k with
    | 0 =>
      by_cases hv : 1 < v.length
      · by_cases hke : cleanup_one_entry v = []
        · simp [cleanupLoop, hv, hke, h2]
        · simp [cleanupLoop, hv, hke, h2]
      · simp [cleanupLoop, hv, h2]
    | k + 1 =>
      have hs0 : sig 0 = false := h1 0 (Nat.succ_pos k)
      have ih2 := fun m2 => ih k (fun n => sig (n + 1)) m2
        (fun i hi => h1 (i + 1) (Nat.succ_lt_succ hi)) h2
      by_cases hv : 1 < v.length
      · by_cases hke : cleanup_one_entry v = []
        · simp [cleanupLoop, hv, hke, hs0, ih2]
        · simp [cleanupLoop, hv, hke, hs0, ih2]
      · simp [cleanupLoop, hv, hs0, ih2]

/-- Claim C7 (counterexample): a duplicate set both of whose paths carry
the marker is resolved — both members are moved to trash — yet the hash
index is never persisted during that cleanup run, because the bucket is
only replaced and written when the computed keep list is non-empty
(if kept:). -/
theorem c7_counterexample :
    cleanup "/r".toList [("/r".toList, [])]
        [("/r".toList, [("h1".toList, ["/d/a(1)".toList, "/d/a(2)".toList])])]
        (fun _ => true) (fun _ => false) =
      (.ran, ⟨[], [], ["/d/a(1)".toList, "/d/a(2)".toList],
        [("h1".toList, ["/d/a(1)".toList, "/d/a(2)".toList])]⟩) := by
  decide

/-- Claim C7 as amended: without cancellation, search persists the hash
store and then the queue store after every single directory consumed from
the queue — the i-th pair of writes holds the buckets of the first i+1
directories and the queue with them consumed — and cleanup persists the
hash store, with the bucket replaced by keep, after each duplicate set
whose computed keep partition is non-empty; a set whose keep is empty (or
a bucket of at most one path) is left unwritten. -/
theorem c7_checkpoint_writes (σ : Type) (H : Hasher σ) (fs : PyFS) (root : Str)
    (qs1 : QStore) (hs1 : HStore) (pathExists : Str → Bool)
    (queue : List Str) (m : BucketMap)
    (entries : List (Str × List Str)) (m2 : BucketMap) :
    searchLoop H fs root qs1 hs1 (fun _ => false) queue m =
      ⟨(List.range queue.length).map
          (fun i => setA root (absorbDirs H fs m (queue.take (i + 1))) hs1),
        (List.range queue.length).map
          (fun i => setA root (queue.drop (i + 1)) qs1),
        absorbDirs H fs m queue⟩ ∧
    (cleanupLoop root hs1 pathExists (fun _ => false) entries m2).hashWrites =
      cleanupWritesSpec root hs1 entries m2 := by
  constructor
  · have h := searchLoop_cut σ H fs root qs1 hs1 queue queue.length
      (fun _ => false) m (fun _ _ => rfl) (fun hlt => absurd hlt (lt_irrefl _))
    simpa [List.take_length, Nat.min_self] using h
  · exact cleanupLoop_sig_false root hs1 pathExists entries m2

/-- Claim C8 (counterexample): with the quit flag already set, the
in-flight cleanup unit — a duplicate set whose paths all carry the
marker — runs to completion (both files are moved to trash) but is NOT
checkpointed: the if kept: guard skips the hash store write because the
computed keep partition is empty, and the loop then halts.  So the claim
that the in-flight unit is always checkpointed before work halts is
false. -/
theorem c8_counterexample :
    cleanup "/r".toList [("/r".toList, [])]
        [("/r".toList, [("h2".toList, ["/e/b(1)".toList, "/e/b(2)".toList])])]
        (fun _ => true) (fun _ => true) =
      (.ran, ⟨[], [], ["/e/b(1)".toList, "/e/b(2)".toList],
        [("h2".toList, ["/e/b(1)".toList, "/e/b(2)".toList])]⟩) := by
  decide

/-- Claim C8 as amended: once the quit flag is set — false at the first k
polls, set at the k-th — the in-flight unit always runs to completion
before work halts and no further unit starts, so no completed unit's
effects are lost.  search runs exactly the min k (queue length) units
whose polls preceded the flag, each completed and checkpointed (both
stores written per unit); cleanup behaves exactly as an uninterrupted run
over the first k+1 buckets — the in-flight unit completes with its moves,
and is checkpointed exactly when its keep partition is non-empty (a
duplicate set with empty keep is moved but never persisted, interrupted
or not). -/
theorem c8_cancellation_units (σ : Type) (H : Hasher σ) (fs : PyFS) (root : Str)
    (qs1 : QStore) (hs1 : HStore) (pathExists : Str → Bool)
    (k : Nat) (sig : Nat → Bool)
    (h1 : ∀ i, i < k → sig i = false) (h2 : sig k = true)
    (queue : List Str) (m : BucketMap)
    (entries : List (Str × List Str)) (m2 : BucketMap) :
    searchLoop H fs root qs1 hs1 sig queue m =
      ⟨(List.range (min k queue.length)).map
          (fun i => setA root (absorbDirs H fs m (queue.take (i + 1))) hs1),
        (List.range (min k queue.length)).map
          (fun i => setA root (queue.drop (i + 1)) qs1),
        absorbDirs H fs m (queue.take k)⟩ ∧
    cleanupLoop root hs1 pathExists sig entries m2 =
      cleanupLoop root hs1 pathExists (fun _ => false) (entries.take (k + 1)) m2 ∧
    (cleanupLoop root hs1 pathExists sig entries m2).hashWrites =
      cleanupWritesSpec root hs1 (entries.take (k + 1)) m2 :=
  ⟨searchLoop_cut σ H fs root qs1 hs1 queue k sig m h1 (fun _ => h2),
    cleanupLoop_cut root hs1 pathExists entries k sig m2 h1 h2,
    by
      rw [cleanupLoop_cut root hs1 pathExists entries k sig m2 h1 h2]
      exact cleanupLoop_sig_false root hs1 pathExists (entries.take (k + 1)) m2⟩

/-- Witness for c8_cancellation_units: the flag goes up between the first
and second poll of a two-directory queue and a one-bucket cleanup. -/
theorem c8_cancellation_units_witness :
    searchLoop toyHasher toyFS "/r".toList [] [] (fun n => decide (0 < n))
        ["/d1".toList, "/d2".toList] [] =
      ⟨(List.range (min 1 ["/d1".toList, "/d2".toList].length)).map
          (fun i => setA "/r".toList
            (absorbDirs toyHasher toyFS [] (["/d1".toList, "/d2".toList].take (i + 1))) []),
        (List.range (min 1 ["/d1".toList, "/d2".toList].length)).map
          (fun i => setA "/r".toList (["/d1".toList, "/d2".toList].drop (i + 1)) []),
        absorbDirs toyHasher toyFS [] (["/d1".toList, "/d2".toList].take 1)⟩ ∧
    cleanupLoop "/r".toList [] (fun _ => true) (fun n => decide (0 < n))
        [("h1".toList, ["/a".toList, "/b".toList])] [] =
      cleanupLoop "/r".toList [] (fun _ => true) (fun _ => false)
        ([("h1".toList, ["/a".toList, "/b".toList])].take (1 + 1)) [] ∧
    (cleanupLoop "/r".toList [] (fun _ => true) (fun n => decide (0 < n))
        [("h1".toList, ["/a".toList, "/b".toList])] []).hashWrites =
      cleanupWritesSpec "/r".toList []
        ([("h1".toList, ["/a".toList, "/b".toList])].take (1 + 1)) [] :=
  c8_cancellation_units (List (List Nat)) toyHasher toyFS "/r".toList [] []
    (fun _ => true) 1 (fun n => decide (0 < n)) (by decide) (by decide)
    ["/d1".toList, "/d2".toList] [] [("h1".toList, ["/a".toList, "/b".toList])] []

/-- Invariant of the cleanup loop: provided every bucket in the iteration
list whose length exceeds one also reads back from the reference map m0
with more than one path, buckets of at most one path in m0 survive
untouched into every persisted snapshot and into the final map. -/
theorem cleanupLoop_preserves_small (root : Str) (hs1 : HStore)
    (pathExists : Str → Bool) :
    ∀ (entries : List (Str × List Str)) (sig : Nat → Bool) (m m0 : BucketMap),
      (∀ k2 v2, (k2, v2) ∈ entries → 1 < v2.length →
        ∀ v0, lookupA k2 m0 = some v0 → 1 < v0.length) →
      smallPreserved m0 m →
      (∀ w ∈ (cleanupLoop root hs1 pathExists sig entries m).hashWrites,
        smallPreserved m0 ((lookupA root w).getD [])) ∧
      smallPreserved m0 (cleanupLoop root hs1 pathExists sig entries m).finalBuckets := by
  intro entries
  induction entries with
  | nil =>
    intro sig m m0 hent hm
    constructor
    · intro w hw
      simp [cleanupLoop] at hw
    · simpa [cleanupLoop] using hm
  | cons e rest ih =>
    obtain ⟨k2, v2⟩ := e
    intro sig m m0 hent hm
    have hentrest : ∀ k3 v3, (k3, v3) ∈ rest → 1 < v3.length →
        ∀ v0, lookupA k3 m0 = some v0 → 1 < v0.length :=
      fun k3 v3 hmem => hent k3 v3 (List.mem_cons_of_mem _ hmem)
    by_cases hv : 1 < v2.length
    · have hm2 : smallPreserved m0 (setA k2 (cleanup_one_entry v2) m) := by
        intro k v0 hl hshort
        have hk2 : k2 ≠ k := by
          intro he
          subst he
          have := hent k2 v2 (List.mem_cons_self _ _) hv v0 hl
          omega
        rw [lookupA_setA, if_neg hk2]
        exact hm k v0 hl hshort
      have hwr : smallPreserved m0
          ((lookupA root (setA root (setA k2 (cleanup_one_entry v2) m) hs1)).getD []) := by
        rw [lookupA_setA, if_pos rfl]
        exact hm2
      by_cases hke : cleanup_one_entry v2 = []
      · by_cases hsig : sig 0 = true
        · constructor
          · intro w hw
            simp [cleanupLoop, hv, hke, hsig] at hw
          · simpa [cleanupLoop, hv, hke, hsig] using hm
        · have hrec := ih (fun n => sig (n + 1)) m m0 hentrest hm
          constructor
          · intro w hw
            simp only [cleanupLoop, hv, hke, hsig] at hw
            simp at hw
            exact hrec.1 w hw
          · simp only [cleanupLoop, hv, hke, hsig]
            simpa using hrec.2
      · by_cases hsig : sig 0 = true
        · constructor
          · intro w hw
            simp [cleanupLoop, hv, hke, hsig] at hw
            subst hw
            exact hwr
          · simpa [cleanupLoop, hv, hke, hsig] using hm2
        · have hrec := ih (fun n => sig (n + 1))
            (setA k2 (cleanup_one_entry v2) m) m0 hentrest hm2
          constructor
          · intro w hw
            simp [cleanupLoop, hv, hke, hsig] at hw
            rcases hw with hw | hw
            · subst hw
              exact hwr
            · exact hrec.1 w hw
          · simp only [cleanupLoop, hv, hke, hsig]
            simpa [hke] using hrec.2
    · by_cases hsig : sig 0 = true
      · constructor
        · intro w hw
          simp [cleanupLoop, hv, hsig] at hw
        · simpa [cleanupLoop, hv, hsig] using hm
      · have hrec := ih (fun n => sig (n + 1)) m m0 hentrest hm
        constructor
        · intro w hw
          simp [cleanupLoop, hv, hsig] at hw
          exact hrec.1 w hw
        · simp only [cleanupLoop, hv, hsig]
          simpa using hrec.2

/-- The cleanup loop never writes the queue store: its body contains no
write_queues_to_cache call. -/
theorem cleanupLoop_queueWrites (root : Str) (hs1 : HStore)
    (pathExists : Str → Bool) (entries : List (Str × List Str))
    (sig : Nat → Bool) (m : BucketMap) :
    (cleanupLoop root hs1 pathExists sig entries m).queueWrites = [] := by
  match entries with
  | [] => rfl
  | (k, v) :: rest =>
    by_cases hsig : sig 0 = true
    · simp [cleanupLoop, hsig]
    · simp [cleanupLoop, hsig]

/-- Claim C10: cleanup performs no queue store write, and every hash
bucket that held at most one path when the store was loaded reads back
unchanged from every snapshot cleanup persists and from the final
in-memory map: only duplicate sets are ever replaced. -/
theorem c10_cleanup_frame (root : Str) (qs : QStore) (hs : HStore)
    (pathExists : Str → Bool) (sig : Nat → Bool)
    (hnd : keysNodupA ((lookupA root hs).getD [])) :
    (cleanup root qs hs pathExists sig).2.queueWrites = [] ∧
    (∀ w ∈ (cleanup root qs hs pathExists sig).2.hashWrites,
      smallPreserved ((lookupA root hs).getD []) ((lookupA root w).getD [])) ∧
    ((cleanup root qs hs pathExists sig).1 = ActionOutcome.ran →
      smallPreserved ((lookupA root hs).getD [])
        (cleanup root qs hs pathExists sig).2.finalBuckets) := by
  by_cases hq : hasKeyA root qs
  · by_cases hh : hasKeyA root hs
    · have hent : ∀ k2 v2, (k2, v2) ∈ (lookupA root hs).getD [] → 1 < v2.length →
          ∀ v0, lookupA k2 ((lookupA root hs).getD []) = some v0 → 1 < v0.length := by
        intro k2 v2 hmem h1len v0 hl
        have hlook := lookupA_of_mem_nodup k2 v2 ((lookupA root hs).getD []) hnd hmem
        rw [hlook] at hl
        injection hl with he
        exact he ▸ h1len
      have hmain := cleanupLoop_preserves_small root hs pathExists
        ((lookupA root hs).getD []) sig ((lookupA root hs).getD [])
        ((lookupA root hs).getD []) hent (fun k v0 hl _ => hl)
      have hcl : cleanup root qs hs pathExists sig =
          (.ran, cleanupLoop root hs pathExists sig ((lookupA root hs).getD [])
            ((lookupA root hs).getD [])) := by
        simp [cleanup, hq, hh]
      rw [hcl]
      exact ⟨cleanupLoop_queueWrites root hs pathExists _ sig _, hmain.1,
        fun _ => hmain.2⟩
    · have hcl : cleanup root qs hs pathExists sig = (.noDuplicates, ⟨[], [], [], []⟩) := by
        simp [cleanup, hq, hh]
      rw [hcl]
      refine ⟨rfl, ?_, ?_⟩
      · intro w hw
        simp at hw
      · intro h
        simp at h
  · have hcl : cleanup root qs hs pathExists sig = (.notSetUp, ⟨[], [], [], []⟩) := by
      simp [cleanup, hq]
    rw [hcl]
    refine ⟨rfl, ?_, ?_⟩
    · intro w hw
      simp at hw
    · intro h
      simp at h

/-- Witness for c10_cleanup_frame: a store holding one singleton bucket
and one duplicate set. -/
theorem c10_cleanup_frame_witness :
    (cleanup "/r".toList [("/r".toList, [])]
        [("/r".toList, [("s1".toList, ["/one".toList]),
          ("d1".toList, ["/a(1)".toList, "/b".toList])])]
        (fun _ => true) (fun _ => false)).2.queueWrites = [] ∧
    (∀ w ∈ (cleanup "/r".toList [("/r".toList, [])]
        [("/r".toList, [("s1".toList, ["/one".toList]),
          ("d1".toList, ["/a(1)".toList, "/b".toList])])]
        (fun _ => true) (fun _ => false)).2.hashWrites,
      smallPreserved
        ((lookupA "/r".toList
          [("/r".toList, [("s1".toList, ["/one".toList]),
            ("d1".toList, ["/a(1)".toList, "/b".toList])])]).getD [])
        ((lookupA "/r".toList w).getD [])) ∧
    ((cleanup "/r".toList [("/r".toList, [])]
        [("/r".toList, [("s1".toList, ["/one".toList]),
          ("d1".toList, ["/a(1)".toList, "/b".toList])])]
        (fun _ => true) (fun _ => false)).1 = ActionOutcome.ran →
      smallPreserved
        ((lookupA "/r".toList
          [("/r".toList, [("s1".toList, ["/one".toList]),
            ("d1".toList, ["/a(1)".toList, "/b".toList])])]).getD [])
        (cleanup "/r".toList [("/r".toList, [])]
          [("/r".toList, [("s1".toList, ["/one".toList]),
            ("d1".toList, ["/a(1)".toList, "/b".toList])])]
          (fun _ => true) (fun _ => false)).2.finalBuckets) :=
  c10_cleanup_frame "/r".toList [("/r".toList, [])]
    [("/r".toList, [("s1".toList, ["/one".toList]),
      ("d1".toList, ["/a(1)".toList, "/b".toList])])]
    (fun _ => true) (fun _ => false) (by unfold keysNodupA; decide)

theorem ldc_noEmpty (prune : Bool) (path : Str) (cs : FSList)
    (h : noEmptyDirsChildren cs = true) :
    list_dirs_children prune path cs = (postorderChildren path cs, cs) :=
  match cs with
  | .nil => by simp [list_dirs_children, postorderChildren]
  | .cons n node rest =>
    match node with
    | .file => by
      simp only [noEmptyDirsChildren, noEmptyDirs, Bool.and_eq_true, Bool.true_and] at h
      have hr := ldc_noEmpty prune path rest h
      simp [list_dirs_children, postorderChildren, postorderDirs, hr]
    | .dir cs2 => by
      simp only [noEmptyDirsChildren, noEmptyDirs, Bool.and_eq_true,
        Bool.not_eq_true'] at h
      have hc := ldc_noEmpty prune (joinPath path n) cs2 h.1.2
      have hr := ldc_noEmpty prune path rest h.2
      simp [list_dirs_children, postorderChildren, postorderDirs, hc, hr, h.1.1]

theorem append_slash_eq (n1 : Str) :
    ∀ (n2 r1 r2 : Str), '/' ∉ n1 → '/' ∉ n2 →
      n1 ++ '/' :: r1 = n2 ++ '/' :: r2 → n1 = n2 := by
  induction n1 with
  | nil =>
    intro n2 r1 r2 h1 h2 h
    cases n2 with
    | nil => rfl
    | cons c cs =>
      simp only [List.nil_append, List.cons_append] at h
      injection h with h3 h4
      exact absurd (by rw [← h3]; exact List.mem_cons_self _ _) h2
  | cons c cs ih =>
    intro n2 r1 r2 h1 h2 h
    cases n2 with
    | nil =>
      simp only [List.nil_append, List.cons_append] at h
      injection h with h3 h4
      exact absurd (by rw [h3]; exact List.mem_cons_self _ _) h1
    | cons d ds =>
      simp only [List.cons_append] at h
      injection h with h3 h4
      have hcs : '/' ∉ cs := fun hm => h1 (List.mem_cons_of_mem _ hm)
      have hds : '/' ∉ ds := fun hm => h2 (List.mem_cons_of_mem _ hm)
      rw [h3, ih ds r1 r2 hcs hds h4]

theorem extends_head_eq (p n1 n2 x : Str) (h1 : '/' ∉ n1) (h2 : '/' ∉ n2)
    (ha : extendsPath (joinPath p n1) x) (hb : extendsPath (joinPath p n2) x) :
    n1 = n2 := by
  have hjoin : ∀ (n u : Str), joinPath p n ++ '/' :: u = p ++ '/' :: (n ++ '/' :: u) := by
    intro n u
    simp [joinPath]
  rcases ha with ha | ⟨r, ha⟩ <;> rcases hb with hb | ⟨s, hb⟩
  · have h : joinPath p n1 = joinPath p n2 := by rw [← ha, hb]
    simp only [joinPath] at h
    have h4 := List.append_cancel_left h
    injection h4 with h5 h6
  · have h : joinPath p n1 = p ++ '/' :: (n2 ++ '/' :: s) := by rw [← ha, hb, hjoin]
    simp only [joinPath] at h
    have h4 := List.append_cancel_left h
    injection h4 with h5 h6
    exact absurd (by rw [h6]; simp) h1
  · have h : p ++ '/' :: (n1 ++ '/' :: r) = joinPath p n2 := by rw [← hjoin, ← ha, hb]
    simp only [joinPath] at h
    have h4 := List.append_cancel_left h
    injection h4 with h5 h6
    exact absurd (by rw [← h6]; simp) h2
  · have h : p ++ '/' :: (n1 ++ '/' :: r) = p ++ '/' :: (n2 ++ '/' :: s) := by
      rw [← hjoin, ← ha, hb, hjoin]
    have h4 := List.append_cancel_left h
    injection h4 with h5 h6
    exact append_slash_eq n1 n2 r s h1 h2 h6

theorem extends_ne (p n1 n2 a b : Str) (h1 : '/' ∉ n1) (h2 : '/' ∉ n2)
    (hne : n1 ≠ n2) (ha : extendsPath (joinPath p n1) a)
    (hb : extendsPath (joinPath p n2) b) : a ≠ b := by
  intro he
  subst he
  exact hne (extends_head_eq p n1 n2 a h1 h2 ha hb)

theorem extends_not_anc (p n1 n2 a b : Str) (h1 : '/' ∉ n1) (h2 : '/' ∉ n2)
    (hne : n1 ≠ n2) (ha : extendsPath (joinPath p n1) a)
    (hb : extendsPath (joinPath p n2) b) : ¬ isAncOf a b := by
  rintro ⟨t, hab⟩
  have hb1 : ∃ s, b = joinPath p n1 ++ '/' :: s := by
    rcases ha with ha | ⟨r, ha⟩
    · exact ⟨t, by rw [hab, ha]⟩
    · exact ⟨r ++ '/' :: t, by rw [hab, ha]; simp⟩
  obtain ⟨s, hb1⟩ := hb1
  exact hne (extends_head_eq p n1 n2 b h1 h2 (Or.inr ⟨s, hb1⟩) hb)

mutual
theorem postorder_extends (q : Str) (t : FSNode) (x : Str)
    (hx : x ∈ postorderDirs q t) : extendsPath q x :=
  match t with
  | .file => by simp [postorderDirs] at hx
  | .dir cs => by
    rw [postorderDirs] at hx
    rcases List.mem_append.mp hx with h | h
    · obtain ⟨r, hr⟩ := postorderChildren_extends q cs x h
      exact Or.inr ⟨r, hr⟩
    · exact Or.inl (List.mem_singleton.mp h)

theorem postorderChildren_extends (q : Str) (cs : FSList) (x : Str)
    (hx : x ∈ postorderChildren q cs) : ∃ r, x = q ++ '/' :: r :=
  match cs with
  | .nil => by simp [postorderChildren] at hx
  | .cons n node rest => by
    rw [postorderChildren] at hx
    rcases List.mem_append.mp hx with h | h
    · rcases postorder_extends (joinPath q n) node x h with he | ⟨r, hr⟩
      · exact ⟨n, by rw [he]; rfl⟩
      · exact ⟨n ++ '/' :: r, by rw [hr]; simp [joinPath]⟩
    · exact postorderChildren_extends q rest x h
end

theorem entryMem_name (n : Str) (node : FSNode) (cs : FSList)
    (h : entryMem n node cs) : n ∈ namesOf cs :=
  match cs with
  | .nil => absurd h (by simp [entryMem])
  | .cons n2 node2 rest => by
    rw [entryMem] at h
    rcases h with ⟨h1, _⟩ | h
    · rw [namesOf, h1]
      exact List.mem_cons_self _ _
    · exact List.mem_cons_of_mem _ (entryMem_name n node rest h)

theorem postorderChildren_mem (q : Str) (cs : FSList) (x : Str)
    (hx : x ∈ postorderChildren q cs) :
    ∃ n node, entryMem n node cs ∧ x ∈ postorderDirs (joinPath q n) node :=
  match cs with
  | .nil => by simp [postorderChildren] at hx
  | .cons n2 node2 rest => by
    rw [postorderChildren] at hx
    rcases List.mem_append.mp hx with h | h
    · exact ⟨n2, node2, Or.inl ⟨rfl, rfl⟩, h⟩
    · obtain ⟨n, node, hm, hp⟩ := postorderChildren_mem q rest x h
      exact ⟨n, node, Or.inr hm, hp⟩

mutual
theorem postorder_length (q : Str) (t : FSNode) :
    (postorderDirs q t).length = countDirs t :=
  match t with
  | .file => rfl
  | .dir cs => by
    rw [postorderDirs, countDirs]
    simp [postorderChildren_length q cs]

theorem postorderChildren_length (q : Str) (cs : FSList) :
    (postorderChildren q cs).length = countDirsChildren cs :=
  match cs with
  | .nil => rfl
  | .cons n node rest => by
    rw [postorderChildren, countDirsChildren]
    simp [postorder_length (joinPath q n) node, postorderChildren_length q rest]
end

theorem wf_dir (cs : FSList) (h : wfNames (.dir cs) = true) :
    (namesOf cs).Nodup ∧ (∀ n ∈ namesOf cs, '/' ∉ n) ∧ wfNamesChildren cs = true := by
  rw [wfNames] at h
  simp only [Bool.and_eq_true, decide_eq_true_eq, List.all_eq_true] at h
  exact ⟨h.1.1, fun n hn => h.1.2 n hn, h.2⟩

theorem wfc_cons (n : Str) (node : FSNode) (rest : FSList)
    (h : wfNamesChildren (.cons n node rest) = true) :
    wfNames node = true ∧ wfNamesChildren rest = true := by
  rw [wfNamesChildren] at h
  exact Bool.and_eq_true_iff.mp h

mutual
theorem postorder_nodup (q : Str) (t : FSNode) (hwf : wfNames t = true) :
    (postorderDirs q t).Nodup :=
  match t with
  | .file => by simp [postorderDirs]
  | .dir cs => by
    obtain ⟨hnd, hsf, hwfc⟩ := wf_dir cs hwf
    rw [postorderDirs, List.nodup_append]
    refine ⟨postorderChildren_nodup q cs hnd hsf hwfc, List.nodup_singleton _, ?_⟩
    intro x hx hq
    obtain ⟨r, hr⟩ := postorderChildren_extends q cs x hx
    rw [List.mem_singleton] at hq
    subst hq
    have := congrArg List.length hr
    simp at this

theorem postorderChildren_nodup (q : Str) (cs : FSList)
    (hnd : (namesOf cs).Nodup) (hsf : ∀ n ∈ namesOf cs, '/' ∉ n)
    (hwfc : wfNamesChildren cs = true) :
    (postorderChildren q cs).Nodup :=
  match cs with
  | .nil => by simp [postorderChildren]
  | .cons n node rest => by
    rw [namesOf] at hnd hsf
    have hnd2 := List.nodup_cons.mp hnd
    have hw := wfc_cons n node rest hwfc
    rw [postorderChildren, List.nodup_append]
    refine ⟨postorder_nodup (joinPath q n) node hw.1,
      postorderChildren_nodup q rest hnd2.2
        (fun m hm => hsf m (List.mem_cons_of_mem _ hm)) hw.2, ?_⟩
    intro x hx hx2
    have ha := postorder_extends (joinPath q n) node x hx
    obtain ⟨n2, node2, hm, hp⟩ := postorderChildren_mem q rest x hx2
    have hb := postorder_extends (joinPath q n2) node2 x hp
    have hn2mem : n2 ∈ namesOf rest := entryMem_name n2 node2 rest hm
    have hne : n ≠ n2 := fun he => hnd2.1 (he ▸ hn2mem)
    exact extends_ne q n n2 x x (hsf n (List.mem_cons_self _ _))
      (hsf n2 (List.mem_cons_of_mem _ hn2mem)) hne ha hb rfl
end

mutual
theorem postorder_pairwise (q : Str) (t : FSNode) (hwf : wfNames t = true) :
    (postorderDirs q t).Pairwise (fun a b => ¬ isAncOf a b) :=
  match t with
  | .file => by simp [postorderDirs]
  | .dir cs => by
    obtain ⟨hnd, hsf, hwfc⟩ := wf_dir cs hwf
    rw [postorderDirs, List.pairwise_append]
    refine ⟨postorderChildren_pairwise q cs hnd hsf hwfc,
      List.pairwise_singleton _ _, ?_⟩
    intro a ha b hb
    rw [List.mem_singleton] at hb
    rw [hb]
    obtain ⟨r, hr⟩ := postorderChildren_extends q cs a ha
    rintro ⟨t2, ht⟩
    rw [hr] at ht
    have := congrArg List.length ht
    simp at this

theorem postorderChildren_pairwise (q : Str) (cs : FSList)
    (hnd : (namesOf cs).Nodup) (hsf : ∀ n ∈ namesOf cs, '/' ∉ n)
    (hwfc : wfNamesChildren cs = true) :
    (postorderChildren q cs).Pairwise (fun a b => ¬ isAncOf a b) :=
  match cs with
  | .nil => by simp [postorderChildren]
  | .cons n node rest => by
    rw [namesOf] at hnd hsf
    have hnd2 := List.nodup_cons.mp hnd
    have hw := wfc_cons n node rest hwfc
    rw [postorderChildren, List.pairwise_append]
    refine ⟨postorder_pairwise (joinPath q n) node hw.1,
      postorderChildren_pairwise q rest hnd2.2
        (fun m hm => hsf m (List.mem_cons_of_mem _ hm)) hw.2, ?_⟩
    intro a ha b hb
    have haext := postorder_extends (joinPath q n) node a ha
    obtain ⟨n2, node2, hm, hp⟩ := postorderChildren_mem q rest b hb
    have hbext := postorder_extends (joinPath q n2) node2 b hp
    have hn2mem : n2 ∈ namesOf rest := entryMem_name n2 node2 rest hm
    have hne : n ≠ n2 := fun he => hnd2.1 (he ▸ hn2mem)
    exact extends_not_anc q n n2 a b (hsf n (List.mem_cons_self _ _))
      (hsf n2 (List.mem_cons_of_mem _ hn2mem)) hne haext hbext
end

/-- Claim C4: for a directory tree with no empty directories (and the
well-formedness every OS listing guarantees: sibling names distinct, no
slash inside a name), list_dirs returns exactly the tree's directory
paths in postorder — N paths for N directories, each appearing once, and
no path ever preceding one of its own descendants (deepest-first) — and
deletes nothing. -/
theorem c4_enumeration (prune : Bool) (root : Str) (cs : FSList)
    (hne : noEmptyDirs (.dir cs) = true) (hwf : wfNames (.dir cs) = true) :
    list_dirs prune root (.dir cs) = (postorderDirs root (.dir cs), some (.dir cs)) ∧
    (postorderDirs root (.dir cs)).length = countDirs (.dir cs) ∧
    (postorderDirs root (.dir cs)).Nodup ∧
    (postorderDirs root (.dir cs)).Pairwise (fun a b => ¬ isAncOf a b) := by
  rw [noEmptyDirs] at hne
  simp only [Bool.and_eq_true, Bool.not_eq_true'] at hne
  refine ⟨?_, postorder_length root _, postorder_nodup root _ hwf,
    postorder_pairwise root _ hwf⟩
  rw [list_dirs]
  simp [hne.1, ldc_noEmpty prune root cs hne.2, postorderDirs]

theorem pruneChildren_of_effEmpty (cs : FSList) (h : effEmptyChildren cs = true) :
    pruneChildren cs = .nil :=
  match cs with
  | .nil => rfl
  | .cons n node rest => by
    rw [effEmptyChildren, Bool.and_eq_true] at h
    cases node with
    | file => simp [effEmpty] at h
    | dir cs2 =>
      rw [effEmpty] at h
      simp [pruneChildren, h.1, pruneChildren_of_effEmpty rest h.2]

theorem effEmptyChildren_isNil_false (cs : FSList) (h : effEmptyChildren cs = false) :
    cs.isNil = false := by
  cases cs with
  | nil => simp [effEmptyChildren] at h
  | cons n node rest => rfl

theorem pruneChildren_not_effEmpty (cs : FSList) (h : effEmptyChildren cs = false) :
    effEmptyChildren (pruneChildren cs) = false :=
  match cs with
  | .nil => by simp [effEmptyChildren] at h
  | .cons n node rest => by
    rw [effEmptyChildren] at h
    cases node with
    | file =>
      simp [pruneChildren, effEmptyChildren, effEmpty]
    | dir cs2 =>
      rw [effEmpty] at h
      by_cases h2 : effEmptyChildren cs2 = true
      · have hrest : effEmptyChildren rest = false := by
          rw [h2] at h
          simpa using h
        simp [pruneChildren, h2, pruneChildren_not_effEmpty rest hrest]
      · have h2f : effEmptyChildren cs2 = false := by simpa using h2
        simp [pruneChildren, h2f, effEmptyChildren, effEmpty,
          pruneChildren_not_effEmpty cs2 h2f]

theorem pruneChildren_effFree (cs : FSList) :
    effEmptyFreeChildren (pruneChildren cs) = true :=
  match cs with
  | .nil => rfl
  | .cons n node rest => by
    cases node with
    | file =>
      simp [pruneChildren, effEmptyFreeChildren, effEmptyFree,
        pruneChildren_effFree rest]
    | dir cs2 =>
      by_cases h2 : effEmptyChildren cs2 = true
      · simp [pruneChildren, h2, pruneChildren_effFree rest]
      · have h2f : effEmptyChildren cs2 = false := by simpa using h2
        simp [pruneChildren, h2f, effEmptyFreeChildren, effEmptyFree,
          pruneChildren_not_effEmpty cs2 h2f, pruneChildren_effFree cs2,
          pruneChildren_effFree rest]

theorem ldc_prune (path : Str) (cs : FSList) :
    list_dirs_children true path cs =
      (postorderChildren path (pruneChildren cs), pruneChildren cs) :=
  match cs with
  | .nil => rfl
  | .cons n node rest => by
    cases node with
    | file =>
      have hr := ldc_prune path rest
      simp [list_dirs_children, pruneChildren, postorderChildren, postorderDirs, hr]
    | dir cs2 =>
      have hr := ldc_prune path rest
      by_cases h2 : effEmptyChildren cs2 = true
      · have hnil := pruneChildren_of_effEmpty cs2 h2
        by_cases hn : cs2.isNil = true
        · simp [list_dirs_children, hn, pruneChildren, h2, postorderChildren, hr]
        · have hnf : cs2.isNil = false := by simpa using hn
          have hc := ldc_prune (joinPath path n) cs2
          simp [list_dirs_children, hnf, hc, hnil, postorderChildren,
            pruneChildren, h2, hr, FSList.isNil]
      · have h2f : effEmptyChildren cs2 = false := by simpa using h2
        have hn : cs2.isNil = false := effEmptyChildren_isNil_false cs2 h2f
        have hc := ldc_prune (joinPath path n) cs2
        have hpn : (pruneChildren cs2).isNil = false :=
          effEmptyChildren_isNil_false _ (pruneChildren_not_effEmpty cs2 h2f)
        simp [list_dirs_children, hn, hc, hpn, pruneChildren, h2f,
          postorderChildren, postorderDirs, hr]

/-- Claim C5: with pruning enabled, a directory that is empty or that
becomes empty once its descendants are pruned (effEmpty) is deleted and
contributes no path; a root that is not effEmpty yields exactly the
pruned tree's directories, and the pruned tree contains no effEmpty
directory — so no such directory ever enters the queue. -/
theorem c5_prune_empty (root : Str) (cs : FSList) :
    (effEmpty (.dir cs) = true → list_dirs true root (.dir cs) = ([], none)) ∧
    (effEmpty (.dir cs) = false →
      list_dirs true root (.dir cs) =
        (postorderDirs root (pruneT (.dir cs)), some (pruneT (.dir cs))) ∧
      effEmptyFree (pruneT (.dir cs)) = true) := by
  constructor
  · intro h
    rw [effEmpty] at h
    rw [list_dirs]
    by_cases hn : cs.isNil = true
    · simp [hn]
    · have hnf : cs.isNil = false := by simpa using hn
      simp [hnf, ldc_prune root cs, pruneChildren_of_effEmpty cs h,
        postorderChildren, FSList.isNil]
  · intro h
    rw [effEmpty] at h
    have hn : cs.isNil = false := effEmptyChildren_isNil_false cs h
    have hpn : (pruneChildren cs).isNil = false :=
      effEmptyChildren_isNil_false _ (pruneChildren_not_effEmpty cs h)
    constructor
    · rw [list_dirs]
      simp [hn, ldc_prune root cs, hpn, pruneT, postorderDirs]
    · rw [pruneT, effEmptyFree]
      simp [pruneChildren_not_effEmpty cs h, pruneChildren_effFree cs]

/-- Witness for c4_enumeration: a root holding a file and a non-empty
subdirectory. -/
theorem c4_enumeration_witness :
    list_dirs false "/r".toList (.dir sampleTree) =
      (postorderDirs "/r".toList (.dir sampleTree), some (.dir sampleTree)) ∧
    (postorderDirs "/r".toList (.dir sampleTree)).length =
      countDirs (.dir sampleTree) ∧
    (postorderDirs "/r".toList (.dir sampleTree)).Nodup ∧
    (postorderDirs "/r".toList (.dir sampleTree)).Pairwise
      (fun a b => ¬ isAncOf a b) :=
  c4_enumeration false "/r".toList sampleTree (by decide) (by decide)

/-- Witness for c5_prune_empty: a fully prunable root, and a root whose
empty subdirectory is pruned away. -/
theorem c5_prune_empty_witness :
    list_dirs true "/r".toList (.dir (.cons "e".toList (.dir .nil) .nil)) =
      ([], none) ∧
    (list_dirs true "/r".toList (.dir sampleTree2) =
        (postorderDirs "/r".toList (pruneT (.dir sampleTree2)),
          some (pruneT (.dir sampleTree2))) ∧
      effEmptyFree (pruneT (.dir sampleTree2)) = true) :=
  ⟨(c5_prune_empty "/r".toList (.cons "e".toList (.dir .nil) .nil)).1 (by decide),
    (c5_prune_empty "/r".toList sampleTree2).2 (by decide)⟩
